import Mathlib

/-
Verification development for a parallel Gordeyev-integral engine.

The program computes, over a grid of frequencies, the Gordeyev integral for a
selected particle velocity distribution (Maxwell, kappa, or an arbitrary
isotropic distribution).  The embedding below models:

* the shared result buffer and the disjoint-slot write discipline of the
  worker pools (`writes`),
* the outer frequency integrator (`integrate`, `rescale`, `gordeyevBuffer`),
* the distribution-specific integrands (`maxwellG`, `Zfun`, `Kn`,
  `kappa_integrand`, `p_d`, `v_int`),
* the nested velocity integrator (`p`, `v_int_integrand`, `velFill`).

Machine floats are modelled by real numbers; the external fixed-node
quadrature primitive (Simpson's rule) and the modified Bessel function of the
second kind are external collaborators and enter as function parameters.  An
overflow of the Bessel evaluation to +infinity is modelled by the value ⊤ of
the extended reals.
-/

/-- Boltzmann constant, the value of scipy.constants.k. -/
def kB : ℝ := 1.380649e-23

/-- Plasma parameters handed to every integrand variant (the params dict). -/
structure Params where
  K_RADAR : ℝ
  THETA : ℝ
  w_c : ℝ
  m : ℝ
  T : ℝ
  nu : ℝ
  kappa : ℝ

/-- Execute a list of work units in order: each unit `u` writes the value
`g u` into buffer slot `u.1`.  Each worker of a pool receives a work unit
`(index, sample)` and stores its result in the shared buffer slot `index`;
the pool completes the work units in an arbitrary order, modelled by an
arbitrary list `units`, and one program run corresponds to a list that is a
permutation of `samples.enum`. -/
def writes {α : Type} (g : ℕ × ℝ → α) (units : List (ℕ × ℝ)) (buf : List α) :
    List α :=
  units.foldl (fun b u => b.set u.1 (g u)) buf

/-- The integrand functions that can be handed to `integrate`; the source
dispatches on identity of the function object. -/
inductive GordFunc
  | kappa_gordeyev
  | maxwell_gordeyev
  | long_calc
  deriving DecidableEq

/-- The shared result buffer of one `integrate` call after the pool has
completed all work units: slot `index` holds the quadrature result for the
frequency of work unit `(index, frequency)`. -/
def gordeyevBuffer (G : ℝ → ℂ) (w : List ℝ) (units : List (ℕ × ℝ)) : List ℂ :=
  writes (fun u => G u.2) units (List.replicate w.length 0)

/-- The kappa rescaling step of `integrate`: exactly when the integrand
function is `kappa_gordeyev`, every buffer entry is divided by
2^(kappa − 1/2) · Γ(kappa + 1/2). -/
noncomputable def rescale (function : GordFunc) (kappa : ℝ) (buf : List ℂ) :
    List ℂ :=
  if function = GordFunc.kappa_gordeyev then
    buf.map (fun a => a / (((2 : ℝ) ^ (kappa - 1 / 2) * Real.Gamma (kappa + 1 / 2) : ℝ) : ℂ))
  else buf

/-- The outer integrator.  `simpson` is the external quadrature primitive
(tool.simpson), taking the integrand function, one frequency, and the plasma
arguments; `units` is the order in which the pool completes the work units
built from `w.enum`. -/
noncomputable def integrate
    (simpson : GordFunc → ℝ → ℝ → ℝ → ℝ → ℝ → ℝ → ℝ → ℂ)
    (w_c m T Lambda_s T_MAX : ℝ) (function : GordFunc) (kappa : ℝ)
    (w : List ℝ) (units : List (ℕ × ℝ)) : List ℂ :=
  let buf := gordeyevBuffer
    (fun wi => simpson function wi w_c m T Lambda_s T_MAX kappa) w units
  let a := rescale function kappa buf
  List.zipWith
    (fun (wi : ℝ) (ai : ℂ) =>
      1 - (Complex.I * (wi : ℂ) + ((Lambda_s * w_c : ℝ) : ℂ)) * ai) w a

/-- The phase function from Mace [2003]; `**.5` is real exponentiation. -/
noncomputable def p (y : ℝ) (pa : Params) : ℝ :=
  let k_perp := pa.K_RADAR * Real.sin pa.THETA
  let k_par := pa.K_RADAR * Real.cos pa.THETA
  (2 * k_perp ^ 2 / pa.w_c ^ 2 * (1 - Real.cos (y * pa.w_c))
    + k_par ^ 2 * y ^ 2) ^ ((1 : ℝ) / 2)

/-- One velocity integral: the quadrature of v·sin(p(y)·v)·f(v) over the
velocity grid `v`.  `simps` is the external quadrature primitive
(scipy.integrate.simps), taking the sampled values and the sample points. -/
noncomputable def v_int_integrand (simps : List ℝ → List ℝ → ℝ) (y : ℝ)
    (pa : Params) (v f : List ℝ) : ℝ :=
  simps (List.zipWith (fun vi fi => vi * Real.sin (p y pa * vi) * fi) v f) v

/-- The shared buffer of v_int_parallel.integrand after its pool completes:
slot `index` of work unit `(index, y_sample)` holds the velocity integral at
`y_sample`. -/
noncomputable def velFill (simps : List ℝ → List ℝ → ℝ) (pa : Params)
    (v f : List ℝ) (units : List (ℕ × ℝ)) (buf : List ℝ) : List ℝ :=
  writes (fun u => v_int_integrand simps u.2 pa v f) units buf

/-- The Maxwellian Gordeyev integrand at one sample of the integration
variable. -/
noncomputable def maxwellG (pa : Params) (yi : ℝ) : ℝ :=
  Real.exp (-(yi * pa.nu)
    - pa.K_RADAR ^ 2 * Real.sin pa.THETA ^ 2 * pa.T * kB
      / (pa.m * pa.w_c ^ 2) * (1 - Real.cos (pa.w_c * yi))
    - 1 / 2 * (pa.K_RADAR * Real.cos pa.THETA * yi) ^ 2 * pa.T * kB / pa.m)

/-- INT_MAXWELL.integrand: the Maxwellian integrand over the whole y grid. -/
noncomputable def maxwell_integrand (pa : Params) (y : List ℝ) : List ℝ :=
  y.map (maxwellG pa)

/-- The squared thermal-spread factor theta_2 of INT_KAPPA.z_func. -/
noncomputable def theta2 (pa : Params) : ℝ :=
  2 * ((pa.kappa - 3 / 2) / pa.kappa) * pa.T * kB / pa.m

/-- The effective Bessel argument Z of INT_KAPPA.z_func at one y sample. -/
noncomputable def Zfun (pa : Params) (yi : ℝ) : ℝ :=
  (2 * pa.kappa) ^ ((1 : ℝ) / 2) *
    (pa.K_RADAR ^ 2 * Real.sin pa.THETA ^ 2 * theta2 pa / pa.w_c ^ 2 *
        (1 - Real.cos (pa.w_c * yi))
      + 1 / 2 * pa.K_RADAR ^ 2 * Real.cos pa.THETA ^ 2 * theta2 pa * yi ^ 2)
      ^ ((1 : ℝ) / 2)

/-- The clamped Bessel factor Kn of INT_KAPPA.z_func: the modified Bessel
function of the second kind `kv` (external collaborator, order
kappa + 1/2) evaluated at Z, with an evaluation that overflows to
+infinity (the value ⊤) replaced by 1. -/
noncomputable def Kn (kv : ℝ → ℝ → EReal) (pa : Params) (yi : ℝ) : ℝ :=
  let k := kv (pa.kappa + 1 / 2) (Zfun pa yi)
  if k = ⊤ then 1 else k.toReal

/-- INT_KAPPA.integrand: G = Z^(kappa+1/2) · Kn · exp(−y·nu) over the whole
y grid, with Kn already clamped by z_func. -/
noncomputable def kappa_integrand (kv : ℝ → ℝ → EReal) (pa : Params)
    (y : List ℝ) : List ℝ :=
  y.map (fun yi =>
    Zfun pa yi ^ (pa.kappa + 1 / 2) * Kn kv pa yi * Real.exp (-(yi * pa.nu)))

/-- Numerator of INT_LONG.p_d at one y sample. -/
noncomputable def p_d_num (pa : Params) (yi : ℝ) : ℝ :=
  |pa.K_RADAR| * |pa.w_c| *
    (Real.cos pa.THETA ^ 2 * pa.w_c * yi
      + Real.sin pa.THETA ^ 2 * Real.sin (pa.w_c * yi))

/-- Denominator of INT_LONG.p_d at one y sample. -/
noncomputable def p_d_den (pa : Params) (yi : ℝ) : ℝ :=
  pa.w_c * (Real.cos pa.THETA ^ 2 * pa.w_c ^ 2 * yi ^ 2
    - 2 * Real.sin pa.THETA ^ 2 * Real.cos (pa.w_c * yi)
    + 2 * Real.sin pa.THETA ^ 2) ^ ((1 : ℝ) / 2)

/-- The one-sided limit substituted by INT_LONG.p_d where the denominator
vanishes: sign(y_last) · |K| · |w_c| / |w_c|. -/
noncomputable def p_d_limit (pa : Params) (ylast : ℝ) : ℝ :=
  Real.sign ylast * |pa.K_RADAR| * |pa.w_c| / |pa.w_c|

/-- INT_LONG.p_d: the phase-derivative factor over the whole y grid, with the
removable singularity at a vanishing denominator replaced by the one-sided
limit taken from the sign of the last y sample. -/
noncomputable def p_d (pa : Params) (y : List ℝ) : List ℝ :=
  y.map (fun yi =>
    if p_d_den pa yi = 0 then p_d_limit pa (y.getLastD 0)
    else p_d_num pa yi / p_d_den pa yi)

/-- INT_LONG.v_int: fills the shared velocity buffer for the Maxwellian
baseline, Simpson-integrates it over y for the Debye-length diagnostic, then
fills the same buffer for the selected distribution and returns it together
with the characteristic-velocity ratio.  `fMax` and `fSel` are the sampled
Maxwellian and selected velocity distribution functions (external VDF
collaborator). -/
noncomputable def v_int (simps : List ℝ → List ℝ → ℝ) (pa : Params)
    (y v fMax fSel : List ℝ) (units1 units2 : List (ℕ × ℝ))
    (buf : List ℝ) : List ℝ × ℝ :=
  let res_maxwell := velFill simps pa v fMax units1 buf
  let int_maxwell := simps res_maxwell y
  let res := velFill simps pa v fSel units2 res_maxwell
  let int_res := simps res y
  (res, int_maxwell / int_res)

/-- A concrete parameter record used to instantiate the theorems. -/
def pa1 : Params := ⟨1, 1, 1, 1, 1, 1, 1⟩

/-- A second concrete parameter record (K = 2, theta = 1, w_c = 3). -/
def pa2 : Params := ⟨2, 1, 3, 1, 1, 1, 1⟩

/-! ## Properties of the shared-buffer writes -/

theorem writes_cons {α : Type} (g : ℕ × ℝ → α) (u : ℕ × ℝ)
    (units : List (ℕ × ℝ)) (buf : List α) :
    writes g (u :: units) buf = writes g units (buf.set u.1 (g u)) := rfl

theorem writes_length {α : Type} (g : ℕ × ℝ → α) (units : List (ℕ × ℝ))
    (buf : List α) : (writes g units buf).length = buf.length := by
  induction units generalizing buf with
  | nil => rfl
  | cons u rest ih => rw [writes_cons, ih, List.length_set]

/-- A buffer slot that no work unit targets keeps its previous content. -/
theorem writes_getElem?_not_mem {α : Type} (g : ℕ × ℝ → α)
    (units : List (ℕ × ℝ)) (buf : List α) (i : ℕ)
    (h : i ∉ units.map Prod.fst) :
    (writes g units buf)[i]? = buf[i]? := by
  induction units generalizing buf with
  | nil => rfl
  | cons u rest ih =>
    rw [List.map_cons, List.mem_cons] at h
    push_neg at h
    rw [writes_cons, ih _ h.2, List.getElem?_set_ne (Ne.symm h.1)]

/-- If the slot indices of the work units are pairwise distinct, then after
all writes the slot of a unit `u` holds exactly the value `g u`. -/
theorem writes_getElem?_mem {α : Type} (g : ℕ × ℝ → α)
    (units : List (ℕ × ℝ)) (buf : List α) (u : ℕ × ℝ)
    (hu : u ∈ units) (hn : (units.map Prod.fst).Nodup)
    (hlt : u.1 < buf.length) :
    (writes g units buf)[u.1]? = some (g u) := by
  induction units generalizing buf with
  | nil => exact absurd hu (List.not_mem_nil u)
  | cons v rest ih =>
    rw [List.map_cons, List.nodup_cons] at hn
    rw [writes_cons]
    rcases List.mem_cons.mp hu with hu | hu
    · subst hu
      rw [writes_getElem?_not_mem _ _ _ _ hn.1,
        List.getElem?_set_eq_of_lt _ hlt]
    · exact ih (buf.set v.1 (g v)) hu hn.2 (by rw [List.length_set]; exact hlt)

/-- One completed pool run over the work units `samples.enum` overwrites the
whole buffer with the per-sample results, whatever the completion order and
whatever the buffer held before. -/
theorem writes_snd_eq_map {α : Type} (g : ℝ → α) (samples : List ℝ)
    (units : List (ℕ × ℝ)) (buf : List α)
    (hperm : units.Perm samples.enum) (hbuf : buf.length = samples.length) :
    writes (fun u => g u.2) units buf = samples.map g := by
  have hn : (units.map Prod.fst).Nodup := by
    refine ((hperm.map Prod.fst).nodup_iff).mpr ?_
    rw [List.enum_map_fst]
    exact List.nodup_range _
  refine List.ext_getElem? (fun i => ?_)
  by_cases hi : i < samples.length
  · have hmem : (i, samples.get ⟨i, hi⟩) ∈ units := by
      refine (hperm.mem_iff).mpr ?_
      exact List.mem_enum_iff_getElem?.mpr (List.getElem?_eq_getElem hi)
    have := writes_getElem?_mem (fun u => g u.2) units buf
      (i, samples.get ⟨i, hi⟩) hmem hn (by rw [hbuf]; exact hi)
    rw [this, List.getElem?_map, List.getElem?_eq_getElem hi]
    rfl
  · push_neg at hi
    have h1 : (writes (fun u => g u.2) units buf).length ≤ i := by
      rw [writes_length, hbuf]; exact hi
    have h2 : (samples.map g).length ≤ i := by rw [List.length_map]; exact hi
    rw [List.getElem?_eq_none h1, List.getElem?_eq_none h2]

/-! ## Length and normal-form lemmas -/

theorem gordeyevBuffer_eq_map (G : ℝ → ℂ) (w : List ℝ)
    (units : List (ℕ × ℝ)) (hperm : units.Perm w.enum) :
    gordeyevBuffer G w units = w.map G :=
  writes_snd_eq_map G w units _ hperm (List.length_replicate _ _)

theorem rescale_length (function : GordFunc) (kappa : ℝ) (buf : List ℂ) :
    (rescale function kappa buf).length = buf.length := by
  unfold rescale
  split <;> simp

theorem gordeyevBuffer_length (G : ℝ → ℂ) (w : List ℝ)
    (units : List (ℕ × ℝ)) :
    (gordeyevBuffer G w units).length = w.length := by
  unfold gordeyevBuffer
  rw [writes_length, List.length_replicate]

theorem integrate_length
    (simpson : GordFunc → ℝ → ℝ → ℝ → ℝ → ℝ → ℝ → ℝ → ℂ)
    (w_c m T Lambda_s T_MAX : ℝ) (function : GordFunc) (kappa : ℝ)
    (w : List ℝ) (units : List (ℕ × ℝ)) :
    (integrate simpson w_c m T Lambda_s T_MAX function kappa w units).length
      = w.length := by
  unfold integrate
  rw [List.length_zipWith, rescale_length, gordeyevBuffer_length]
  exact min_self _

theorem velFill_eq_map (simps : List ℝ → List ℝ → ℝ) (pa : Params)
    (v f : List ℝ) (y : List ℝ) (units : List (ℕ × ℝ)) (buf : List ℝ)
    (hperm : units.Perm y.enum) (hbuf : buf.length = y.length) :
    velFill simps pa v f units buf
      = y.map (fun yi => v_int_integrand simps yi pa v f) :=
  writes_snd_eq_map (fun yi => v_int_integrand simps yi pa v f) y units buf
    hperm hbuf

theorem velFill_length (simps : List ℝ → List ℝ → ℝ) (pa : Params)
    (v f : List ℝ) (units : List (ℕ × ℝ)) (buf : List ℝ) :
    (velFill simps pa v f units buf).length = buf.length :=
  writes_length _ _ _

/-! ## Pointwise facts at the singular sample y = 0 -/

theorem maxwellG_zero (pa : Params) : maxwellG pa 0 = 1 := by
  unfold maxwellG
  have h : -((0 : ℝ) * pa.nu)
      - pa.K_RADAR ^ 2 * Real.sin pa.THETA ^ 2 * pa.T * kB
        / (pa.m * pa.w_c ^ 2) * (1 - Real.cos (pa.w_c * 0))
      - 1 / 2 * (pa.K_RADAR * Real.cos pa.THETA * 0) ^ 2 * pa.T * kB / pa.m
      = 0 := by
    rw [mul_zero, Real.cos_zero]; ring
  rw [h, Real.exp_zero]

theorem Zfun_zero (pa : Params) : Zfun pa 0 = 0 := by
  unfold Zfun
  have h : pa.K_RADAR ^ 2 * Real.sin pa.THETA ^ 2 * theta2 pa / pa.w_c ^ 2 *
      (1 - Real.cos (pa.w_c * 0))
      + 1 / 2 * pa.K_RADAR ^ 2 * Real.cos pa.THETA ^ 2 * theta2 pa
        * (0 : ℝ) ^ 2 = 0 := by
    rw [mul_zero, Real.cos_zero]; ring
  rw [h, Real.zero_rpow (by norm_num : ((1 : ℝ) / 2) ≠ 0), mul_zero]

theorem p_d_den_at_zero (pa : Params) : p_d_den pa 0 = 0 := by
  unfold p_d_den
  have h : Real.cos pa.THETA ^ 2 * pa.w_c ^ 2 * (0 : ℝ) ^ 2
      - 2 * Real.sin pa.THETA ^ 2 * Real.cos (pa.w_c * 0)
      + 2 * Real.sin pa.THETA ^ 2 = 0 := by
    rw [mul_zero, Real.cos_zero]; ring
  rw [h, Real.zero_rpow (by norm_num : ((1 : ℝ) / 2) ≠ 0), mul_zero]

/-! ## Helper facts for concrete instances -/

theorem enum_two (a b : ℝ) : ([a, b]).enum = [(0, a), (1, b)] := rfl

theorem enum_one (a : ℝ) : ([a]).enum = [(0, a)] := rfl

/-! ## Claims about the outer frequency integrator -/

/-- C2: the rescaling step of integrate divides every buffer entry by
2^(kappa − 1/2) · Γ(kappa + 1/2) exactly when the kappa integrand was
selected, and leaves the buffer unchanged for every other selection. -/
theorem rescale_kappa_exact (kappa : ℝ) (buf : List ℂ) :
    rescale GordFunc.kappa_gordeyev kappa buf
      = buf.map (fun a =>
          a / (((2 : ℝ) ^ (kappa - 1 / 2) * Real.Gamma (kappa + 1 / 2) : ℝ) : ℂ))
    ∧ ∀ function : GordFunc, function ≠ GordFunc.kappa_gordeyev →
        rescale function kappa buf = buf := by
  constructor
  · rw [rescale, if_pos rfl]
  · intro f hf
    rw [rescale, if_neg hf]

theorem rescale_kappa_exact_witness :
    rescale GordFunc.kappa_gordeyev 3 [(1 : ℂ)]
      = [(1 : ℂ)].map (fun a =>
          a / (((2 : ℝ) ^ ((3 : ℝ) - 1 / 2) * Real.Gamma ((3 : ℝ) + 1 / 2) : ℝ) : ℂ))
    ∧ rescale GordFunc.maxwell_gordeyev 3 [(1 : ℂ)] = [(1 : ℂ)] :=
  ⟨(rescale_kappa_exact 3 [(1 : ℂ)]).1,
    (rescale_kappa_exact 3 [(1 : ℂ)]).2 GordFunc.maxwell_gordeyev (by decide)⟩

/-- C1: the sequence returned by integrate is aligned with the frequency
grid, and at the position of frequency w[i] its value is
1 − (i·w[i] + Lambda_s·w_c) · a(w[i]), where a is the (possibly rescaled)
buffer value accumulated for that frequency. -/
theorem integrate_final_transform
    (simpson : GordFunc → ℝ → ℝ → ℝ → ℝ → ℝ → ℝ → ℝ → ℂ)
    (w_c m T Lambda_s T_MAX : ℝ) (function : GordFunc) (kappa : ℝ)
    (w : List ℝ) (units : List (ℕ × ℝ)) (hperm : units.Perm w.enum)
    (i : ℕ) (hi : i < w.length) :
    (integrate simpson w_c m T Lambda_s T_MAX function kappa w units).length
        = w.length
    ∧ (integrate simpson w_c m T Lambda_s T_MAX function kappa w units)[i]?
        = some (1 - (Complex.I * (w[i] : ℂ) + ((Lambda_s * w_c : ℝ) : ℂ)) *
            ((rescale function kappa (gordeyevBuffer
              (fun wi => simpson function wi w_c m T Lambda_s T_MAX kappa)
              w units)).getD i 0))
    ∧ (gordeyevBuffer
        (fun wi => simpson function wi w_c m T Lambda_s T_MAX kappa)
        w units)[i]?
        = some (simpson function w[i] w_c m T Lambda_s T_MAX kappa) := by
  refine ⟨integrate_length _ _ _ _ _ _ _ _ _ _, ?_, ?_⟩
  · have ha : (rescale function kappa (gordeyevBuffer
        (fun wi => simpson function wi w_c m T Lambda_s T_MAX kappa)
        w units)).length = w.length := by
      rw [rescale_length, gordeyevBuffer_length]
    have hzip : i < (List.zipWith
        (fun (wi : ℝ) (ai : ℂ) =>
          1 - (Complex.I * (wi : ℂ) + ((Lambda_s * w_c : ℝ) : ℂ)) * ai) w
        (rescale function kappa (gordeyevBuffer
          (fun wi => simpson function wi w_c m T Lambda_s T_MAX kappa)
          w units))).length := by
      rw [List.length_zipWith, ha]
      simp only [min_self]
      exact hi
    show (List.zipWith
        (fun (wi : ℝ) (ai : ℂ) =>
          1 - (Complex.I * (wi : ℂ) + ((Lambda_s * w_c : ℝ) : ℂ)) * ai) w
        (rescale function kappa (gordeyevBuffer
          (fun wi => simpson function wi w_c m T Lambda_s T_MAX kappa)
          w units)))[i]? = _
    rw [List.getElem?_eq_getElem hzip, List.getElem_zipWith]
    rw [List.getD_eq_getElem _ 0 (by rw [ha]; exact hi)]
  · rw [gordeyevBuffer_eq_map _ _ _ hperm, List.getElem?_map,
      List.getElem?_eq_getElem hi]
    rfl

theorem integrate_final_transform_witness :
    (integrate (fun _ _ _ _ _ _ _ _ => 0) 1 1 1 1 1 GordFunc.maxwell_gordeyev 1
        [2] ([(2 : ℝ)].enum)).length = ([(2 : ℝ)]).length
    ∧ (integrate (fun _ _ _ _ _ _ _ _ => 0) 1 1 1 1 1 GordFunc.maxwell_gordeyev 1
        [2] ([(2 : ℝ)].enum))[0]?
        = some ((1 : ℂ) - (Complex.I * ((([(2 : ℝ)])[0] : ℝ) : ℂ) + (((1 : ℝ) * 1 : ℝ) : ℂ)) *
            ((rescale GordFunc.maxwell_gordeyev 1 (gordeyevBuffer
              (fun _ => (0 : ℂ)) [2] ([(2 : ℝ)].enum))).getD 0 0))
    ∧ (gordeyevBuffer (fun _ => (0 : ℂ)) [2] ([(2 : ℝ)].enum))[0]?
        = some 0 := by
  exact integrate_final_transform (fun _ _ _ _ _ _ _ _ => 0) 1 1 1 1 1
    GordFunc.maxwell_gordeyev 1 [2] ([(2 : ℝ)].enum) (List.Perm.refl _)
    0 (by simp)

/-- C7: after one integrate call completes, the frequency-index-to-slot map
is a bijection onto [0, N): the slot indices of the work units are a
permutation of range N, each index is targeted by exactly one work unit, no
slot remains at the initial sentinel, and slot i holds the result for
frequency w[i]. -/
theorem gordeyev_partition_complete (G : ℝ → ℂ) (w : List ℝ)
    (units : List (ℕ × ℝ)) (hperm : units.Perm w.enum) :
    (units.map Prod.fst).Perm (List.range w.length)
    ∧ (∀ i, i < w.length → (units.map Prod.fst).count i = 1)
    ∧ (∀ i, ∀ hi : i < w.length,
        (writes (fun u => some (G u.2)) units
          (List.replicate w.length (none : Option ℂ)))[i]?
          = some (some (G w[i])))
    ∧ gordeyevBuffer G w units = w.map G := by
  have hfst : (units.map Prod.fst).Perm (List.range w.length) := by
    have := hperm.map Prod.fst
    rwa [List.enum_map_fst] at this
  refine ⟨hfst, fun i hi => ?_, fun i hi => ?_,
    gordeyevBuffer_eq_map G w units hperm⟩
  · rw [hfst.count_eq]
    exact List.count_eq_one_of_mem (List.nodup_range _) (List.mem_range.mpr hi)
  · rw [writes_snd_eq_map (fun x => some (G x)) w units _ hperm
      (List.length_replicate _ _)]
    rw [List.getElem?_map, List.getElem?_eq_getElem hi]
    rfl

theorem gordeyev_partition_complete_witness :
    (([((1 : ℕ), (5 : ℝ)), (0, 2)]).map Prod.fst).Perm
      (List.range ([(2 : ℝ), 5]).length)
    ∧ gordeyevBuffer (fun x => (x : ℂ)) [2, 5] [(1, 5), (0, 2)]
        = ([(2 : ℝ), 5]).map (fun x => (x : ℂ)) :=
  ⟨(gordeyev_partition_complete (fun x => (x : ℂ)) [2, 5] [(1, 5), (0, 2)]
      (by rw [enum_two]; exact List.Perm.swap _ _ _)).1,
    (gordeyev_partition_complete (fun x => (x : ℂ)) [2, 5] [(1, 5), (0, 2)]
      (by rw [enum_two]; exact List.Perm.swap _ _ _)).2.2.2⟩

/-- C8: two integrate calls with identical parameters and grid produce
identical outputs, whatever the order in which the two worker pools complete
their work units. -/
theorem integrate_deterministic
    (simpson : GordFunc → ℝ → ℝ → ℝ → ℝ → ℝ → ℝ → ℝ → ℂ)
    (w_c m T Lambda_s T_MAX : ℝ) (function : GordFunc) (kappa : ℝ)
    (w : List ℝ) (units1 units2 : List (ℕ × ℝ))
    (h1 : units1.Perm w.enum) (h2 : units2.Perm w.enum) :
    integrate simpson w_c m T Lambda_s T_MAX function kappa w units1
      = integrate simpson w_c m T Lambda_s T_MAX function kappa w units2 := by
  unfold integrate
  rw [gordeyevBuffer_eq_map _ _ _ h1, gordeyevBuffer_eq_map _ _ _ h2]

theorem integrate_deterministic_witness :
    integrate (fun _ _ _ _ _ _ _ _ => 0) 1 1 1 1 1 GordFunc.maxwell_gordeyev 1
        [2, 5] [(0, 2), (1, 5)]
      = integrate (fun _ _ _ _ _ _ _ _ => 0) 1 1 1 1 1 GordFunc.maxwell_gordeyev 1
        [2, 5] [(1, 5), (0, 2)] :=
  integrate_deterministic (fun _ _ _ _ _ _ _ _ => 0) 1 1 1 1 1
    GordFunc.maxwell_gordeyev 1 [2, 5] [(0, 2), (1, 5)] [(1, 5), (0, 2)]
    (by rw [enum_two])
    (by rw [enum_two]; exact List.Perm.swap _ _ _)

/-! ## Claims about the nested velocity integrator -/

/-- C3: after the velocity pool completes, the value at each y sample is the
quadrature over the velocity grid v of v·sin(p(y)·v)·f(v), where
p(y) = sqrt(2·k_perp²/w_c²·(1 − cos(y·w_c)) + k_par²·y²) with
k_perp = K·sin(theta) and k_par = K·cos(theta). -/
theorem velFill_values (simps : List ℝ → List ℝ → ℝ) (pa : Params)
    (v f : List ℝ) (y : List ℝ) (units : List (ℕ × ℝ)) (buf : List ℝ)
    (hperm : units.Perm y.enum) (hbuf : buf.length = y.length)
    (i : ℕ) (hi : i < y.length) :
    (velFill simps pa v f units buf)[i]?
      = some (simps
          (List.zipWith (fun vi fi => vi * Real.sin (p y[i] pa * vi) * fi) v f)
          v)
    ∧ ∀ yv : ℝ, p yv pa = Real.sqrt
        (2 * (pa.K_RADAR * Real.sin pa.THETA) ^ 2 / pa.w_c ^ 2 *
            (1 - Real.cos (yv * pa.w_c))
          + (pa.K_RADAR * Real.cos pa.THETA) ^ 2 * yv ^ 2) := by
  constructor
  · rw [velFill_eq_map simps pa v f y units buf hperm hbuf,
      List.getElem?_map, List.getElem?_eq_getElem hi]
    rfl
  · intro yv
    rw [Real.sqrt_eq_rpow]
    rfl

theorem velFill_values_witness :
    (velFill (fun _ _ => (5 : ℝ)) pa1 [] [] [(0, 2)] [0])[0]? = some 5
    ∧ p 0 pa1 = Real.sqrt
        (2 * (pa1.K_RADAR * Real.sin pa1.THETA) ^ 2 / pa1.w_c ^ 2 *
            (1 - Real.cos (0 * pa1.w_c))
          + (pa1.K_RADAR * Real.cos pa1.THETA) ^ 2 * (0 : ℝ) ^ 2) := by
  exact ⟨(velFill_values (fun _ _ => 5) pa1 [] [] [2] [(0, 2)] [0]
      (by rw [enum_one]) rfl 0 (by simp)).1,
    (velFill_values (fun _ _ => 5) pa1 [] [] [2] [(0, 2)] [0]
      (by rw [enum_one]) rfl 0 (by simp)).2 0⟩

/-! ## Claims about the integrand catalogue -/

/-- C6: the Maxwellian integrand evaluates to exactly 1 at every y sample
equal to 0, for every parameter record. -/
theorem maxwell_integrand_at_zero (pa : Params) (y : List ℝ) (i : ℕ)
    (hi : i < y.length) (hy : y[i] = 0) :
    (maxwell_integrand pa y)[i]? = some 1 ∧ maxwellG pa 0 = 1 := by
  refine ⟨?_, maxwellG_zero pa⟩
  unfold maxwell_integrand
  rw [List.getElem?_map, List.getElem?_eq_getElem hi]
  show some (maxwellG pa y[i]) = some 1
  rw [hy, maxwellG_zero]

theorem maxwell_integrand_at_zero_witness :
    (maxwell_integrand pa1 [0])[0]? = some 1 ∧ maxwellG pa1 0 = 1 := by
  exact maxwell_integrand_at_zero pa1 [0] 0 (by simp) rfl

/-- C5: for the kappa variant, a sample whose Bessel evaluation is infinite
has its Bessel factor replaced by exactly 1, and the integrand at that sample
is built from the clamped value, so no infinite Bessel value reaches the
returned sequence. -/
theorem kappa_bessel_clamped (kv : ℝ → ℝ → EReal) (pa : Params) (y : List ℝ)
    (i : ℕ) (hi : i < y.length)
    (hinf : kv (pa.kappa + 1 / 2) (Zfun pa y[i]) = ⊤) :
    Kn kv pa y[i] = 1
    ∧ (kappa_integrand kv pa y)[i]?
        = some (Zfun pa y[i] ^ (pa.kappa + 1 / 2) * 1
            * Real.exp (-(y[i] * pa.nu))) := by
  have hKn : Kn kv pa y[i] = 1 := by
    show (if kv (pa.kappa + 1 / 2) (Zfun pa y[i]) = ⊤ then (1 : ℝ)
      else (kv (pa.kappa + 1 / 2) (Zfun pa y[i])).toReal) = 1
    rw [if_pos hinf]
  refine ⟨hKn, ?_⟩
  unfold kappa_integrand
  rw [List.getElem?_map, List.getElem?_eq_getElem hi]
  show some (Zfun pa y[i] ^ (pa.kappa + 1 / 2) * Kn kv pa y[i]
    * Real.exp (-(y[i] * pa.nu))) = _
  rw [hKn]

theorem kappa_bessel_clamped_witness :
    Kn (fun _ _ => ⊤) pa1 (([(0 : ℝ)])[0]) = 1
    ∧ (kappa_integrand (fun _ _ => ⊤) pa1 [0])[0]?
        = some (Zfun pa1 (([(0 : ℝ)])[0]) ^ (pa1.kappa + 1 / 2) * (1 : ℝ)
            * Real.exp (-((([(0 : ℝ)])[0]) * pa1.nu))) := by
  exact kappa_bessel_clamped (fun _ _ => ⊤) pa1 [0] 0 (by simp) rfl

/-- C10: for the kappa variant, at a y sample equal to 0 the effective
Bessel argument Z is exactly 0; when the order is positive the Bessel
evaluation there is infinite, hence clamped to 1, and the returned integrand
at that sample is exactly 0 = 0^(kappa+1/2)·1·exp(0) — in contrast to the
Maxwell variant, whose integrand at y = 0 is 1. -/
theorem kappa_integrand_zero_sample (kv : ℝ → ℝ → EReal) (pa : Params)
    (y : List ℝ) (i : ℕ) (hi : i < y.length) (hy : y[i] = 0)
    (hk : 0 < pa.kappa + 1 / 2)
    (hinf : kv (pa.kappa + 1 / 2) 0 = ⊤) :
    Zfun pa 0 = 0
    ∧ Kn kv pa 0 = 1
    ∧ (kappa_integrand kv pa y)[i]? = some 0
    ∧ maxwellG pa 0 = 1 := by
  have hZ : Zfun pa 0 = 0 := Zfun_zero pa
  have hKn : Kn kv pa 0 = 1 := by
    show (if kv (pa.kappa + 1 / 2) (Zfun pa 0) = ⊤ then (1 : ℝ)
      else (kv (pa.kappa + 1 / 2) (Zfun pa 0)).toReal) = 1
    rw [hZ, if_pos hinf]
  refine ⟨hZ, hKn, ?_, maxwellG_zero pa⟩
  unfold kappa_integrand
  rw [List.getElem?_map, List.getElem?_eq_getElem hi]
  show some (Zfun pa y[i] ^ (pa.kappa + 1 / 2) * Kn kv pa y[i]
    * Real.exp (-(y[i] * pa.nu))) = some 0
  rw [hy, hZ, Real.zero_rpow (ne_of_gt hk), zero_mul, zero_mul]

theorem kappa_integrand_zero_sample_witness :
    Zfun pa1 0 = 0
    ∧ Kn (fun _ _ => ⊤) pa1 0 = 1
    ∧ (kappa_integrand (fun _ _ => ⊤) pa1 [0])[0]? = some 0
    ∧ maxwellG pa1 0 = 1 := by
  exact kappa_integrand_zero_sample (fun _ _ => ⊤) pa1 [0] 0 (by simp) rfl
    (by norm_num [pa1]) rfl

/-- C4: wherever the p_d denominator vanishes (in particular at y = 0), the
returned value is the substituted limit sign(y_last)·|K|·|w_c|/|w_c|, which
for a nonzero gyrofrequency equals sign(y_last)·|K| — independent of the
aspect angle and of the sign (indeed the value) of the gyrofrequency. -/
theorem p_d_singular_value (pa : Params) (y : List ℝ) (hne : y ≠ [])
    (hwc : pa.w_c ≠ 0) (i : ℕ) (hi : i < y.length)
    (hden : p_d_den pa y[i] = 0) :
    (p_d pa y)[i]?
      = some (Real.sign (y.getLast hne) * |pa.K_RADAR| * |pa.w_c| / |pa.w_c|)
    ∧ Real.sign (y.getLast hne) * |pa.K_RADAR| * |pa.w_c| / |pa.w_c|
        = Real.sign (y.getLast hne) * |pa.K_RADAR|
    ∧ p_d_den pa 0 = 0
    ∧ ∀ pa' : Params, pa'.K_RADAR = pa.K_RADAR → pa'.w_c ≠ 0 →
        p_d_limit pa' (y.getLast hne) = p_d_limit pa (y.getLast hne) := by
  have hl : y.getLastD 0 = y.getLast hne := by
    rw [List.getLastD_eq_getLast?, List.getLast?_eq_getLast _ hne]
    rfl
  refine ⟨?_, ?_, p_d_den_at_zero pa, ?_⟩
  · unfold p_d
    rw [List.getElem?_map, List.getElem?_eq_getElem hi]
    show some (if p_d_den pa y[i] = 0 then p_d_limit pa (y.getLastD 0)
      else p_d_num pa y[i] / p_d_den pa y[i]) = _
    rw [if_pos hden, hl]
    rfl
  · rw [mul_div_assoc, div_self (abs_ne_zero.mpr hwc), mul_one]
  · intro pa' hK hw
    unfold p_d_limit
    rw [hK, mul_div_assoc, div_self (abs_ne_zero.mpr hw), mul_one,
      mul_div_assoc, div_self (abs_ne_zero.mpr hwc), mul_one]

theorem p_d_singular_value_witness :
    (p_d pa2 [0, 1])[0]?
      = some (Real.sign 1 * |pa2.K_RADAR| * |pa2.w_c| / |pa2.w_c|)
    ∧ Real.sign 1 * |pa2.K_RADAR| * |pa2.w_c| / |pa2.w_c|
        = Real.sign 1 * |pa2.K_RADAR| := by
  exact ⟨(p_d_singular_value pa2 [0, 1] (by simp) (by norm_num [pa2]) 0
      (by simp) (p_d_den_at_zero pa2)).1,
    (p_d_singular_value pa2 [0, 1] (by simp) (by norm_num [pa2]) 0
      (by simp) (p_d_den_at_zero pa2)).2.1⟩

/-- C9: the Debye-length diagnostic of INT_LONG.v_int (the ratio of the
Simpson-integrated Maxwellian baseline to the current distribution) does not
alter the returned sequence: the returned sequence equals the velocity
integral of the selected distribution, exactly what a run without the
diagnostic (a single fill of the pristine buffer) returns. -/
theorem v_int_frame (simps : List ℝ → List ℝ → ℝ) (pa : Params)
    (y v fMax fSel : List ℝ) (units1 units2 units3 : List (ℕ × ℝ))
    (buf : List ℝ) (h1 : units1.Perm y.enum) (h2 : units2.Perm y.enum)
    (h3 : units3.Perm y.enum) (hbuf : buf.length = y.length) :
    (v_int simps pa y v fMax fSel units1 units2 buf).1
      = velFill simps pa v fSel units3 buf
    ∧ (∀ i, ∀ hi : i < y.length,
        ((v_int simps pa y v fMax fSel units1 units2 buf).1)[i]?
          = some (v_int_integrand simps y[i] pa v fSel))
    ∧ (v_int simps pa y v fMax fSel units1 units2 buf).2
        = simps (y.map (fun yi => v_int_integrand simps yi pa v fMax)) y
          / simps (y.map (fun yi => v_int_integrand simps yi pa v fSel)) y := by
  have hresM : velFill simps pa v fMax units1 buf
      = y.map (fun yi => v_int_integrand simps yi pa v fMax) :=
    velFill_eq_map simps pa v fMax y units1 buf h1 hbuf
  have hres : (v_int simps pa y v fMax fSel units1 units2 buf).1
      = y.map (fun yi => v_int_integrand simps yi pa v fSel) := by
    show velFill simps pa v fSel units2 (velFill simps pa v fMax units1 buf)
      = _
    exact velFill_eq_map simps pa v fSel y units2 _ h2
      (by rw [velFill_length, hbuf])
  refine ⟨?_, fun i hi => ?_, ?_⟩
  · rw [hres, velFill_eq_map simps pa v fSel y units3 buf h3 hbuf]
  · rw [hres, List.getElem?_map, List.getElem?_eq_getElem hi]
    rfl
  · show simps (velFill simps pa v fMax units1 buf) y
      / simps (velFill simps pa v fSel units2
          (velFill simps pa v fMax units1 buf)) y = _
    rw [velFill_eq_map simps pa v fSel y units2 _ h2
      (by rw [velFill_length, hbuf]), hresM]

theorem v_int_frame_witness :
    (v_int (fun _ _ => (1 : ℝ)) pa1 [2] [] [] [] [(0, 2)] [(0, 2)] [0]).1
      = velFill (fun _ _ => (1 : ℝ)) pa1 [] [] [(0, 2)] [0] := by
  exact (v_int_frame (fun _ _ => 1) pa1 [2] [] [] [] [(0, 2)] [(0, 2)]
    [(0, 2)] [0] (by rw [enum_one]) (by rw [enum_one]) (by rw [enum_one])
    rfl).1
